import Mathlib

/-!
A verification development for the dynamically-typed value node
`choc::json::Value` of `choc/containers/choc_JSONValue.h`.

The C++ class is shallowly embedded: each heap buffer (array storage,
object storage, long-string buffer) is modelled by its live contents
together with the tracked capacity, the `double` payload is modelled by
an exact rational number, and operations that can throw are modelled
with `Except String`, carrying the exact message strings the C++
implementation passes to `throwError`.
-/

namespace ChocJson

/-- Shallow embedding of `choc::json::Value`.  The ten constructors mirror
the members of the `Type` enum; `array` keeps the live elements
(`elements[0, numElements)`) plus the tracked `capacity`, `object` keeps the
live `(key, value)` members in insertion order plus the tracked `capacity`,
and both string forms keep their character contents. -/
inductive Value where
  | undefined : Value
  | null : Value
  | boolV (b : Bool) : Value
  | int32 (n : Int) : Value
  | int64 (n : Int) : Value
  | double (x : Rat) : Value
  | shortString (s : String) : Value
  | longString (s : String) : Value
  | array (elements : List Value) (capacity : Nat) : Value
  | object (members : List (String × Value)) (capacity : Nat) : Value

/-- Mirrors `Value::isUndefined`. -/
def isUndefined : Value → Bool
  | .undefined => true
  | _ => false

/-- Mirrors `Value::isNull`. -/
def isNull : Value → Bool
  | .null => true
  | _ => false

/-- Mirrors `Value::isBool`. -/
def isBool : Value → Bool
  | .boolV _ => true
  | _ => false

/-- Mirrors `Value::isInt32`. -/
def isInt32 : Value → Bool
  | .int32 _ => true
  | _ => false

/-- Mirrors `Value::isInt64`. -/
def isInt64 : Value → Bool
  | .int64 _ => true
  | _ => false

/-- Mirrors `Value::isInt` (`isInt32() || isInt64()`). -/
def isInt (v : Value) : Bool := isInt32 v || isInt64 v

/-- Mirrors `Value::isFloat` (the unified `double_` tag). -/
def isFloat : Value → Bool
  | .double _ => true
  | _ => false

/-- Mirrors `Value::isString` (`shortString` or `longString` tag). -/
def isString : Value → Bool
  | .shortString _ => true
  | .longString _ => true
  | _ => false

/-- Mirrors `Value::isArray`. -/
def isArray : Value → Bool
  | .array _ _ => true
  | _ => false

/-- Mirrors `Value::isObject`. -/
def isObject : Value → Bool
  | .object _ _ => true
  | _ => false

/-- Mirrors `Value::getBool`, which throws unless the tag is `bool_`. -/
def getBool : Value → Except String Bool
  | .boolV b => .ok b
  | _ => .error "Value is not a boolean"

/-- Mirrors `Value::getInt32`, which throws unless the tag is `int32`. -/
def getInt32 : Value → Except String Int
  | .int32 n => .ok n
  | _ => .error "Value is not a 32-bit integer"

/-- Mirrors `Value::getInt64`, which throws unless the tag is `int64`. -/
def getInt64 : Value → Except String Int
  | .int64 n => .ok n
  | _ => .error "Value is not a 64-bit integer"

/-- Mirrors `Value::getFloat64`, which throws unless the tag is `double_`. -/
def getFloat64 : Value → Except String Rat
  | .double x => .ok x
  | _ => .error "Value is not a float"

/-- Mirrors `Value::getString`, which throws unless a string tag is active. -/
def getString : Value → Except String String
  | .shortString s => .ok s
  | .longString s => .ok s
  | _ => .error "Value is not a string"

/-- The numeric payload as used by `operator==`: `isFloat() ? getFloat64()
: (double) getInt()`.  The conversion to the common floating representation
is modelled exactly on the rationals. -/
def numericToRat : Value → Rat
  | .int32 n => (n : Rat)
  | .int64 n => (n : Rat)
  | .double x => x
  | _ => 0

mutual

/-- Mirrors `Value::operator==`: numbers of any width compare via the common
floating representation; otherwise the tags must match, and strings compare
by contents, arrays element-wise in order, and objects as sets of members
(each left member looks up the first same-named member on the right via
`findObjectMember`, after a member-count check). -/
def valueEq : Value → Value → Bool
  | a, b =>
    if (isInt a || isFloat a) && (isInt b || isFloat b) then
      decide (numericToRat a = numericToRat b)
    else
      match a, b with
      | .undefined, .undefined => true
      | .null, .null => true
      | .boolV x, .boolV y => x == y
      | .shortString s, .shortString t => s == t
      | .longString s, .longString t => s == t
      | .array es _, .array fs _ => es.length == fs.length && arrayEqList es fs
      | .object ms _, .object ns _ => ms.length == ns.length && membersIncluded ms ns
      | _, _ => false
termination_by a b => sizeOf a + sizeOf b
decreasing_by all_goals (simp_wf; try omega)

/-- The element-wise loop of the array case of `Value::operator==`. -/
def arrayEqList : List Value → List Value → Bool
  | [], [] => true
  | x :: xs, y :: ys => valueEq x y && arrayEqList xs ys
  | _, _ => false
termination_by xs ys => sizeOf xs + sizeOf ys
decreasing_by all_goals (simp_wf; try omega)

/-- The member loop of the object case of `Value::operator==`: every member
of the left list must be matched in the right list. -/
def membersIncluded : List (String × Value) → List (String × Value) → Bool
  | [], _ => true
  | (k, x) :: rest, ns => lookupEq ns k x && membersIncluded rest ns
termination_by ms ns => sizeOf ms + sizeOf ns
decreasing_by all_goals (simp_wf; try omega)

/-- One step of the object case of `Value::operator==`: `findObjectMember`
fused with the value comparison — scan for the first member named `k` and
compare its value with `x`; report `false` when no member is named `k`. -/
def lookupEq : List (String × Value) → String → Value → Bool
  | [], _, _ => false
  | (k2, y) :: rest, k, x => if k2 == k then valueEq x y else lookupEq rest k x
termination_by ns _k x => sizeOf ns + sizeOf x
decreasing_by all_goals (simp_wf; try omega)

end

/-- Mirrors `createEmptyArray()`: an array node with a null buffer, zero
used-count and zero capacity. -/
def createEmptyArray : Value := .array [] 0

/-- Mirrors `createObject()`: an object node with a null buffer, zero
used-count and zero capacity. -/
def createObjectValue : Value := .object [] 0

/-- Mirrors the string constructor `Value::Value(std::string_view)`: contents
up to 22 bytes are stored inline as a short string, longer contents go to a
heap buffer as a long string. -/
def mkString (s : String) : Value :=
  if s.utf8ByteSize ≤ 22 then .shortString s else .longString s

/-- Mirrors `Value::ensureArray`: a node that is not array-typed is reset
(releasing its payload) and becomes an empty array with no buffer. -/
def ensureArray : Value → Value
  | .array es c => .array es c
  | _ => .array [] 0

/-- Mirrors `Value::ensureObject`: a node that is not object-typed is reset
(releasing its payload) and becomes an empty object with no buffer. -/
def ensureObject : Value → Value
  | .object ms c => .object ms c
  | _ => .object [] 0

/-- Mirrors `Value::reserveArray`: `ensureArray()`, then grow the buffer to
exactly the requested capacity unless it is already covered.  A successful
`realloc` is assumed (the failure path throws AllocationFailure and changes
nothing). -/
def reserveArray (v : Value) (capacity : Nat) : Value :=
  match ensureArray v with
  | .array es c => if capacity ≤ c then .array es c else .array es capacity
  | w => w

/-- Mirrors `Value::reserveObject`: `ensureObject()`, then grow the buffer to
exactly the requested capacity unless it is already covered.  A successful
`realloc` is assumed (the failure path throws AllocationFailure and changes
nothing). -/
def reserveObject (v : Value) (capacity : Nat) : Value :=
  match ensureObject v with
  | .object ms c => if capacity ≤ c then .object ms c else .object ms capacity
  | w => w

/-- The array growth policy `(capacity + 8) & ~7u`, i.e. `capacity + 8`
rounded down to a multiple of 8 (the operands stay far below 2^32, so the
untruncated arithmetic form is exact). -/
def growArrayCapacity (c : Nat) : Nat := (c + 8) / 8 * 8

/-- The object growth policy `(numMembers + 4) & ~3u`, i.e. `numMembers + 4`
rounded down to a multiple of 4. -/
def growObjectCapacity (n : Nat) : Nat := (n + 4) / 4 * 4

/-- Mirrors `Value::addArrayElement`: `ensureArray()`, grow to the next
capacity class when the used-count has reached the capacity, then
placement-construct the new element at the end. -/
def addArrayElement (v x : Value) : Value :=
  match ensureArray v with
  | .array es c =>
      match (if es.length ≥ c then reserveArray (.array es c) (growArrayCapacity c)
             else .array es c) with
      | .array es2 c2 => .array (es2 ++ [x]) c2
      | w => w
  | w => w

/-- The body of `Value::splice(index, deleteCount)` acting on the live
elements: returns the freshly built result array and the remaining elements.
If `index` is past the used-count, or the clamped delete count is zero, an
empty array is returned and the source is untouched; otherwise the clamped
range is moved into the result (built by `reserveArray` plus repeated
`addArrayElement`, as the source does) and the tail is shifted left. -/
def spliceCore (es : List Value) (index deleteCount : Nat) : Value × List Value :=
  if index ≥ es.length then (createEmptyArray, es)
  else
    let d := min deleteCount (es.length - index)
    if d = 0 then (createEmptyArray, es)
    else
      let removed := (es.drop index).take d
      let result := removed.foldl addArrayElement (reserveArray createEmptyArray d)
      (result, es.take index ++ es.drop (index + d))

/-- Mirrors `Value::splice(uint32_t index, uint32_t deleteCount)`: throws
TypeMismatch on a non-array, otherwise delegates to `spliceCore` and keeps
the source capacity. -/
def splice (v : Value) (index deleteCount : Nat) : Except String (Value × Value) :=
  match v with
  | .array es c =>
      let r := spliceCore es index deleteCount
      .ok (r.1, .array r.2 c)
  | _ => .error "Value is not an array"

/-- Mirrors the variadic `Value::splice(index, deleteCount, elements...)`:
the plain `splice` runs first; when there are elements to insert, `index` is
clamped to the post-deletion used-count, the buffer is grown to the new size
if needed, the tail from `index` on is shifted right and the new elements are
placement-constructed at `index` in order. -/
def spliceInsert (v : Value) (index deleteCount : Nat) (inserts : List Value) :
    Except String (Value × Value) :=
  match v with
  | .array es c =>
      let r := spliceCore es index deleteCount
      let es1 := r.2
      if inserts.isEmpty then .ok (r.1, .array es1 c)
      else
        let index2 := min index es1.length
        let newSize := es1.length + inserts.length
        match (if newSize > c then reserveArray (.array es1 c) newSize
               else .array es1 c) with
        | .array es2 c2 =>
            .ok (r.1, .array (es2.take index2 ++ inserts ++ es2.drop index2) c2)
        | w => .ok (r.1, w)
  | _ => .error "Value is not an array"

/-- The overwrite path of `Value::setObjectMember`: scan for the first member
named `k`; when found, replace its value in place (keeping the stored key and
the position) and return the new list, else return `none`. -/
def setInMembers : List (String × Value) → String → Value → Option (List (String × Value))
  | [], _, _ => none
  | (k2, y) :: rest, k, x =>
      if k2 == k then some ((k2, x) :: rest)
      else (setInMembers rest k x).map (fun tail => (k2, y) :: tail)

/-- Mirrors `Value::setObjectMember`: `ensureObject()`, then overwrite the
first member with the given name in place when one exists; otherwise grow the
buffer to the next capacity class if full and append a new member at the
end. -/
def setObjectMember (v : Value) (k : String) (x : Value) : Value :=
  match ensureObject v with
  | .object ms c =>
      match setInMembers ms k x with
      | some ms2 => .object ms2 c
      | none =>
          let c2 := if ms.length ≥ c then growObjectCapacity ms.length else c
          .object (ms ++ [(k, x)]) c2
  | w => w

/-- The loop of `Value::findObjectMember` on the member list: the index of
the first member whose key equals `k`, or the length of the list when no
member matches. -/
def findObjectMemberIdx (ms : List (String × Value)) (k : String) : Nat :=
  match ms with
  | [] => 0
  | (k2, _) :: rest => if k2 == k then 0 else findObjectMemberIdx rest k + 1

/-- Mirrors `Value::hasObjectMember`: `false` on a non-object, otherwise
whether `findObjectMember` hits a live member. -/
def hasObjectMember (v : Value) (k : String) : Bool :=
  match v with
  | .object ms _ => findObjectMemberIdx ms k < ms.length
  | _ => false

/-- Mirrors `Value::getObjectMemberAt`: throws TypeMismatch on a non-object,
throws IndexOutOfBounds past the live member count, otherwise returns the
`(name, value)` pair at the index. -/
def getObjectMemberAt (v : Value) (index : Nat) : Except String (String × Value) :=
  match v with
  | .object ms _ =>
      if h : index < ms.length then .ok (ms.get ⟨index, h⟩)
      else .error "Object member index out of bounds"
  | _ => .error "Value is not an object"

/-- The used-count read by `addMember` when pre-reserving
(`data.objectData.numMembers`, meaningful only on an object). -/
def numMembersOf : Value → Nat
  | .object ms _ => ms.length
  | _ => 0

/-- Mirrors the variadic `Value::addMember` unrolled over a list of
`(name, value)` pairs: for each pair, `ensureObject()`, pre-reserve room for
this pair and all the remaining ones, then `setMember`, then recurse on the
remaining pairs. -/
def addMember : Value → List (String × Value) → Value
  | v, [] => v
  | v, (k, x) :: rest =>
      let v1 := ensureObject v
      let v2 := reserveObject v1 (numMembersOf v1 + 1 + rest.length)
      addMember (setObjectMember v2 k x) rest

/-- Mirrors `Value::removeMember`: `false` on a non-object or an absent key;
otherwise the found member is removed, the survivors shift left in order and
the used-count drops by one. -/
def removeMember (v : Value) (k : String) : Bool × Value :=
  match v with
  | .object ms c =>
      let idx := findObjectMemberIdx ms k
      if idx ≥ ms.length then (false, .object ms c)
      else (true, .object (ms.take idx ++ ms.drop (idx + 1)) c)
  | _ => (false, v)

/-- Mirrors `Value::size()`: string length, array element count or object
member count; any other variant throws NotSizeable. -/
def sizeOfValue : Value → Except String Nat
  | .shortString s => .ok s.utf8ByteSize
  | .longString s => .ok s.utf8ByteSize
  | .array es _ => .ok es.length
  | .object ms _ => .ok ms.length
  | _ => .error "Value does not have a size"

/-- Mirrors `getWithDefault<bool>`: `isBool() ? getBool() : defaultValue`. -/
def getWithDefaultBool (v : Value) (d : Bool) : Except String Bool :=
  if isBool v then getBool v else .ok d

/-- Mirrors `getWithDefault<int32_t>`: `isInt32() ? getInt32() :
defaultValue`. -/
def getWithDefaultInt32 (v : Value) (d : Int) : Except String Int :=
  if isInt32 v then getInt32 v else .ok d

/-- Mirrors `getWithDefault<int64_t>`: `isInt64() ? getInt64() : (isInt32() ?
getInt32() : defaultValue)` — the one int-width coercion the family
defines. -/
def getWithDefaultInt64 (v : Value) (d : Int) : Except String Int :=
  if isInt64 v then getInt64 v else if isInt32 v then getInt32 v else .ok d

/-- Mirrors `getWithDefault<float>`: `isFloat() ? getFloat32() :
defaultValue`; `getFloat32` is `getFloat64` narrowed to `float`, and the
narrowing cast is modelled as the identity on the exact rational payload. -/
def getWithDefaultFloat32 (v : Value) (d : Rat) : Except String Rat :=
  if isFloat v then getFloat64 v else .ok d

/-- Mirrors `getWithDefault<double>`: `isFloat() ? getFloat64() :
defaultValue`. -/
def getWithDefaultFloat64 (v : Value) (d : Rat) : Except String Rat :=
  if isFloat v then getFloat64 v else .ok d

/-- Mirrors `getWithDefault<std::string>`: `isString() ? getString() :
defaultValue`. -/
def getWithDefaultString (v : Value) (d : String) : Except String String :=
  if isString v then getString v else .ok d

mutual

/-- Mirrors `Value::copyFrom` (the deep copy behind copy construction and
copy assignment): scalar payloads and inline short strings are copied
bit-for-bit, a long string gets a freshly allocated buffer with the same
contents, and arrays and objects get fresh buffers of the same capacity whose
live elements (resp. member keys and values) are recursively copy-
constructed. -/
def copyFrom : Value → Value
  | .longString s => .longString s
  | .array es c => .array (copyElements es) c
  | .object ms c => .object (copyMembers ms) c
  | v => v
termination_by v => sizeOf v
decreasing_by all_goals (simp_wf; try omega)

/-- The element loop of the array case of `Value::copyFrom`. -/
def copyElements : List Value → List Value
  | [] => []
  | v :: rest => copyFrom v :: copyElements rest
termination_by es => sizeOf es
decreasing_by all_goals (simp_wf; try omega)

/-- The member loop of the object case of `Value::copyFrom`: each key is
rebuilt from its contents and each value is copy-constructed. -/
def copyMembers : List (String × Value) → List (String × Value)
  | [] => []
  | (k, x) :: rest => (k, copyFrom x) :: copyMembers rest
termination_by ms => sizeOf ms
decreasing_by all_goals (simp_wf; try omega)

end

/-- Pairwise distinctness of a key list, the invariant the object storage
maintains (`setObjectMember` never creates a duplicate key). -/
def keysNodup : List String → Bool
  | [] => true
  | k :: ks => (!ks.contains k) && keysNodup ks

mutual

/-- Well-formedness of a value: every object reachable inside it has
pairwise-distinct member keys.  Every value constructible through the public
API satisfies this invariant. -/
def wf : Value → Bool
  | .array es _ => wfElements es
  | .object ms _ => keysNodup (ms.map Prod.fst) && wfMembers ms
  | _ => true
termination_by v => sizeOf v
decreasing_by all_goals (simp_wf; try omega)

/-- Well-formedness of every element of an array. -/
def wfElements : List Value → Bool
  | [] => true
  | v :: rest => wf v && wfElements rest
termination_by es => sizeOf es
decreasing_by all_goals (simp_wf; try omega)

/-- Well-formedness of every member value of an object. -/
def wfMembers : List (String × Value) → Bool
  | [] => true
  | (_, x) :: rest => wf x && wfMembers rest
termination_by ms => sizeOf ms
decreasing_by all_goals (simp_wf; try omega)

end

/-- Byte size of the packed `shortString` union member: a one-byte length
plus 22 inline characters. -/
def shortStringPayloadBytes : Nat := 1 + 22

/-- Byte size of the packed `LongStringData` struct: a `char*` plus a
`size_t`, parameterized by the platform widths of those types. -/
def longStringDataBytes (ptrBytes sizeTBytes : Nat) : Nat := ptrBytes + sizeTBytes

/-- Byte size of the packed `ArrayData` struct: a `Value*` plus two
`uint32_t` fields. -/
def arrayDataBytes (ptrBytes : Nat) : Nat := ptrBytes + 4 + 4

/-- Byte size of the packed `ObjectData` struct: a `Member*` plus two
`uint32_t` fields. -/
def objectDataBytes (ptrBytes : Nat) : Nat := ptrBytes + 4 + 4

/-- Byte size of the packed `Data` union: the maximum over its members
(`bool`, `int32_t`, `int64_t`, `double`, the inline short string, the long
string record and the two container records). -/
def dataUnionBytes (ptrBytes sizeTBytes : Nat) : Nat :=
  max (max (max 1 4) (max 8 8))
      (max shortStringPayloadBytes
           (max (longStringDataBytes ptrBytes sizeTBytes)
                (max (arrayDataBytes ptrBytes) (objectDataBytes ptrBytes))))

/-- Byte size of a whole `Value` node: the one-byte `Type` tag followed by
the packed `Data` union (`#pragma pack(push, 1)` eliminates padding, so the
sizes add). -/
def valueBytes (ptrBytes sizeTBytes : Nat) : Nat :=
  1 + dataUnionBytes ptrBytes sizeTBytes

/-- The live member list of a node: the object storage contents for an
object-typed node, empty for every other variant. -/
def membersOf : Value → List (String × Value)
  | .object ms _ => ms
  | _ => []

/-- The member-list effect of one `setObjectMember` call: overwrite the first
member with the given name in place when it exists, else append. -/
def applySetMember (ms : List (String × Value)) (k : String) (x : Value) :
    List (String × Value) :=
  match setInMembers ms k x with
  | some ms2 => ms2
  | none => ms ++ [(k, x)]

/-! Helper lemmas. -/

theorem reserveArray_fresh (d : Nat) : reserveArray createEmptyArray d = .array [] d := by
  simp only [reserveArray, createEmptyArray, ensureArray]
  split
  · next h => simp [Nat.le_zero.mp h]
  · rfl

theorem addArrayElement_no_grow (acc : List Value) (c : Nat) (x : Value)
    (h : acc.length < c) : addArrayElement (.array acc c) x = .array (acc ++ [x]) c := by
  simp only [addArrayElement, ensureArray]
  rw [if_neg (by omega)]

theorem foldl_addArrayElement (l : List Value) : ∀ (acc : List Value) (c : Nat),
    acc.length + l.length ≤ c →
    l.foldl addArrayElement (.array acc c) = .array (acc ++ l) c := by
  induction l with
  | nil => intro acc c _; simp
  | cons x xs ih =>
      intro acc c h
      simp only [List.length_cons] at h
      rw [List.foldl_cons, addArrayElement_no_grow acc c x (by omega), ih (acc ++ [x]) c]
      · simp
      · simp only [List.length_append, List.length_cons, List.length_nil]
        omega

theorem reserveArray_grow (es : List Value) (c n : Nat) (h : c < n) :
    reserveArray (.array es c) n = .array es n := by
  simp only [reserveArray, ensureArray]
  rw [if_neg (by omega)]

theorem spliceCore_eq (es : List Value) (index deleteCount : Nat) :
    spliceCore es index deleteCount =
      (.array ((es.drop index).take (min deleteCount (es.length - index)))
              (min deleteCount (es.length - index)),
       es.take index ++ es.drop (index + min deleteCount (es.length - index))) := by
  by_cases h1 : index ≥ es.length
  · have hd : min deleteCount (es.length - index) = 0 := by omega
    simp [spliceCore, h1, hd, createEmptyArray]
  · by_cases h2 : min deleteCount (es.length - index) = 0
    · simp [spliceCore, h1, h2, createEmptyArray]
    · have hlen : ((es.drop index).take (min deleteCount (es.length - index))).length
          = min deleteCount (es.length - index) := by
        simp only [List.length_take, List.length_drop]
        omega
      simp only [spliceCore, ge_iff_le, if_neg h1, if_neg h2, reserveArray_fresh]
      rw [foldl_addArrayElement _ [] _ (by simp [hlen])]
      simp

/-- Claim C2: `splice(index, deleteCount)` on an array with used-count `n`
returns an empty array and leaves the source unchanged when `index ≥ n`, and
otherwise removes `d = min(deleteCount, n - index)` elements starting at
`index` into the returned array (in order), shifts the tail left over the
gap, and shrinks the used-count to `n - d`; in particular
`splice([0..9], 2, 3)` returns `[2,3,4]` and leaves `[0,1,5,6,7,8,9]`.  The
first conjunct gives the general closed form (when `index ≥ n` the clamped
count is `0`, the removed list is empty and
`take index ++ drop index = es`); the second is the spec's concrete
instance. -/
theorem splice_removes_clamped_range (es : List Value) (c index deleteCount : Nat) :
    (splice (.array es c) index deleteCount =
      .ok (.array ((es.drop index).take (min deleteCount (es.length - index)))
                  (min deleteCount (es.length - index)),
           .array (es.take index ++ es.drop (index + min deleteCount (es.length - index))) c))
    ∧ splice (.array ([0, 1, 2, 3, 4, 5, 6, 7, 8, 9].map Value.int32) 10) 2 3 =
        .ok (.array ([2, 3, 4].map Value.int32) 3,
             .array ([0, 1, 5, 6, 7, 8, 9].map Value.int32) 10) := by
  constructor
  · simp only [splice, spliceCore_eq]
  · rfl

/-- Claim C3: the element-inserting `splice(index, deleteCount, e1..ek)` with
`k ≥ 1` first performs the deletion exactly as the plain `splice` (the third
conjunct equates the returned removed elements of the two overloads), then
clamps `index` down to the post-deletion used-count, grows the buffer to the
new size when needed, and inserts the new elements at the clamped position,
shifting the following elements right intact; in particular
`splice([0,1,2,3,4], 2, 1, insert=[100,200])` returns `[2]` and leaves
`[0,1,100,200,3,4]` (see the witness). -/
theorem spliceInsert_deletes_then_inserts (es : List Value) (c index deleteCount : Nat)
    (inserts : List Value) (h : inserts ≠ []) :
    (spliceInsert (.array es c) index deleteCount inserts =
      (let d := min deleteCount (es.length - index)
       let kept := es.take index ++ es.drop (index + d)
       let i2 := min index kept.length
       let newSize := kept.length + inserts.length
       .ok (.array ((es.drop index).take d) d,
            .array (kept.take i2 ++ inserts ++ kept.drop i2)
                   (if c < newSize then newSize else c))))
    ∧ (spliceInsert (.array es c) index deleteCount inserts).map Prod.fst
        = (splice (.array es c) index deleteCount).map Prod.fst := by
  have hne : inserts.isEmpty = false := by
    cases inserts with
    | nil => exact absurd rfl h
    | cons y ys => rfl
  have hmain : spliceInsert (.array es c) index deleteCount inserts =
      (let d := min deleteCount (es.length - index)
       let kept := es.take index ++ es.drop (index + d)
       let i2 := min index kept.length
       let newSize := kept.length + inserts.length
       .ok (.array ((es.drop index).take d) d,
            .array (kept.take i2 ++ inserts ++ kept.drop i2)
                   (if c < newSize then newSize else c))) := by
    by_cases hg : (es.take index ++ es.drop (index + min deleteCount (es.length - index))).length
        + inserts.length > c
    · simp only [spliceInsert, spliceCore_eq, hne, Bool.false_eq_true, if_false, if_pos hg,
        reserveArray_grow _ _ _ hg, if_pos (gt_iff_lt.mp hg)]
    · simp only [spliceInsert, spliceCore_eq, hne, Bool.false_eq_true, if_false, if_neg hg,
        if_neg (by omega : ¬ c < (es.take index ++ es.drop (index + min deleteCount
          (es.length - index))).length + inserts.length)]
  refine ⟨hmain, ?_⟩
  rw [hmain]
  simp [splice, spliceCore_eq, Except.map]

/-- Witness for C3 at the spec's concrete instance: inserting `[100, 200]`
after deleting one element at index 2 of `[0,1,2,3,4]` returns `[2]` and
leaves `[0,1,100,200,3,4]` (capacity grows from 5 to the new size 6). -/
theorem spliceInsert_deletes_then_inserts_witness :
    spliceInsert (.array ([0, 1, 2, 3, 4].map Value.int32) 5) 2 1
        ([100, 200].map Value.int32) =
      .ok (.array ([2].map Value.int32) 1,
           .array ([0, 1, 100, 200, 3, 4].map Value.int32) 6) := by
  have h := (spliceInsert_deletes_then_inserts ([0, 1, 2, 3, 4].map Value.int32) 5 2 1
    ([100, 200].map Value.int32) (by simp)).1
  simpa using h

/-- Claim C6: whenever both values are numeric (32-bit integer, 64-bit
integer or float, in any combination of widths and tags), `operator==` is
decided purely by converting both payloads to the common floating
representation and comparing; the witness instantiates this to show that an
`int32` 5, an `int64` 5 and a `double` 5.0 are pairwise equal. -/
theorem numeric_eq_via_common_float (a b : Value)
    (ha : (isInt a || isFloat a) = true) (hb : (isInt b || isFloat b) = true) :
    valueEq a b = true ↔ numericToRat a = numericToRat b := by
  rcases a with _ | _ | b1 | n1 | n1 | x1 | s1 | s1 | es1 | ms1 <;>
    try simp only [isInt, isInt32, isInt64, isFloat, Bool.or_self, Bool.false_eq_true] at ha
  all_goals
    rcases b with _ | _ | b2 | n2 | n2 | x2 | s2 | s2 | es2 | ms2 <;>
      try simp only [isInt, isInt32, isInt64, isFloat, Bool.or_self, Bool.false_eq_true] at hb
  all_goals simp [valueEq, numericToRat, isInt, isInt32, isInt64, isFloat]

/-- Witness for C6: the three numeric nodes holding 5 are pairwise equal
across tags and widths, and a mismatched pair stays unequal. -/
theorem numeric_eq_via_common_float_witness :
    valueEq (.int32 5) (.int64 5) = true
    ∧ valueEq (.int32 5) (.double 5) = true
    ∧ valueEq (.int64 5) (.double 5) = true
    ∧ valueEq (.int32 5) (.double 6) = false := by
  refine ⟨?_, ?_, ?_, ?_⟩
  · exact (numeric_eq_via_common_float (.int32 5) (.int64 5) (by decide) (by decide)).mpr
      (by norm_num [numericToRat])
  · exact (numeric_eq_via_common_float (.int32 5) (.double 5) (by decide) (by decide)).mpr
      (by norm_num [numericToRat])
  · exact (numeric_eq_via_common_float (.int64 5) (.double 5) (by decide) (by decide)).mpr
      (by norm_num [numericToRat])
  · have h := numeric_eq_via_common_float (.int32 5) (.double 6) (by decide) (by decide)
    simp only [numericToRat] at h
    rw [Bool.eq_false_iff]
    intro hc
    have := h.mp hc
    norm_num at this

/-- Claim C7: the `getWithDefault` family never fails — for each requested
result type the call returns `ok` of the held payload when the active tag
matches the requested type (with the int32-to-int64 widening the family
defines, and with `float` served from the unified `double_` tag), and `ok` of
the caller-supplied default in every other case. -/
theorem getWithDefault_never_fails (v : Value) (db : Bool) (di32 di64 : Int)
    (df32 df64 : Rat) (ds : String) :
    getWithDefaultBool v db = .ok (match v with | .boolV b => b | _ => db)
    ∧ getWithDefaultInt32 v di32 = .ok (match v with | .int32 n => n | _ => di32)
    ∧ getWithDefaultInt64 v di64 =
        .ok (match v with | .int64 n => n | .int32 n => n | _ => di64)
    ∧ getWithDefaultFloat32 v df32 = .ok (match v with | .double x => x | _ => df32)
    ∧ getWithDefaultFloat64 v df64 = .ok (match v with | .double x => x | _ => df64)
    ∧ getWithDefaultString v ds =
        .ok (match v with | .shortString s => s | .longString s => s | _ => ds) := by
  cases v <;>
    simp [getWithDefaultBool, getWithDefaultInt32, getWithDefaultInt64, getWithDefaultFloat32,
      getWithDefaultFloat64, getWithDefaultString, isBool, isInt32, isInt64, isFloat, isString,
      getBool, getInt32, getInt64, getFloat64, getString]

/-- Counterexample for C8 as stated: `getObjectMemberAt` on a value that is
not object-typed does fail — it throws the TypeMismatch message, not the
IndexOutOfBounds one — contradicting the claim that apart from an
out-of-range index neither lookup fails. -/
theorem getObjectMemberAt_nonobject_fails :
    getObjectMemberAt .null 0 = .error "Value is not an object"
    ∧ getObjectMemberAt .null 0 ≠ .error "Object member index out of bounds" := by
  refine ⟨rfl, ?_⟩
  intro h
  simp only [getObjectMemberAt] at h
  exact absurd (Except.error.inj h) (by decide)

theorem findObjectMemberIdx_lt_iff (ms : List (String × Value)) (k : String) :
    findObjectMemberIdx ms k < ms.length ↔ ms.any (fun kv => kv.1 == k) = true := by
  induction ms with
  | nil => simp [findObjectMemberIdx]
  | cons kv rest ih =>
      obtain ⟨k2, y⟩ := kv
      by_cases hk : k2 == k
      · simp [findObjectMemberIdx, hk]
      · simp only [findObjectMemberIdx, hk, Bool.false_eq_true, if_false, List.any_cons,
          List.length_cons, Bool.or_eq_true]
        constructor
        · intro hlt
          exact Or.inr (ih.mp (by omega))
        · intro hor
          rcases hor with hop | hrest
          · exact absurd hop (by simp [hk])
          · have := ih.mpr hrest
            omega

/-- Claim C8, amended: `hasObjectMember` never fails — it returns whether
some live member carries the key on an object and `false` on any non-object
— and `getObjectMemberAt` fails with IndexOutOfBounds when the index reaches
past the live member count of an object, returns the positional
`(name, value)` pair below it, but on a value that is not object-typed it
also fails, with the TypeMismatch message rather than succeeding as the
claim stated. -/
theorem objectLookups_error_behavior (v : Value) (k : String) (i : Nat) :
    (isObject v = false →
      getObjectMemberAt v i = .error "Value is not an object"
      ∧ hasObjectMember v k = false)
    ∧ (∀ ms c, v = .object ms c →
        (∀ h : i < ms.length, getObjectMemberAt v i = .ok (ms.get ⟨i, h⟩))
        ∧ (ms.length ≤ i →
            getObjectMemberAt v i = .error "Object member index out of bounds")
        ∧ hasObjectMember v k = ms.any (fun kv => kv.1 == k)) := by
  constructor
  · intro hno
    cases v <;> simp_all [isObject, getObjectMemberAt, hasObjectMember]
  · intro ms c hv
    subst hv
    refine ⟨?_, ?_, ?_⟩
    · intro h
      simp [getObjectMemberAt, h]
    · intro h
      have hnl : ¬ i < ms.length := by omega
      simp [getObjectMemberAt, hnl]
    · simp only [hasObjectMember]
      cases hb : ms.any (fun kv => kv.1 == k) with
      | false =>
          have hnlt : ¬ findObjectMemberIdx ms k < ms.length := by
            rw [findObjectMemberIdx_lt_iff, hb]
            exact Bool.false_ne_true
          simp [hnlt]
      | true =>
          have hlt : findObjectMemberIdx ms k < ms.length :=
            (findObjectMemberIdx_lt_iff ms k).mpr hb
          simp [hlt]

/-- Witness for the amended C8: on the one-member object `{a: 1}`,
position 1 is out of range and fails with the IndexOutOfBounds message, the
key `b` is reported absent without failing, and on the non-object `true`
both behaviors of the first conjunct are exhibited. -/
theorem objectLookups_error_behavior_witness :
    getObjectMemberAt (.object [("a", Value.int32 1)] 4) 1 =
        .error "Object member index out of bounds"
    ∧ hasObjectMember (.object [("a", Value.int32 1)] 4) "b" = false
    ∧ getObjectMemberAt (.boolV true) 0 = .error "Value is not an object"
    ∧ hasObjectMember (.boolV true) "a" = false := by
  have h1 := (objectLookups_error_behavior (.object [("a", Value.int32 1)] 4) "b" 1).2
    [("a", Value.int32 1)] 4 rfl
  have h2 := (objectLookups_error_behavior (.boolV true) "a" 0).1 (by decide)
  exact ⟨h1.2.1 (by decide), by simpa using h1.2.2, h2.1, h2.2⟩

/-- Claim C9: in the packed layout of the node (one-byte tag plus the
`#pragma pack(1)` union of all variant payloads), the total size stays
within the 24-byte budget for every platform pointer and `size_t` width up
to 8 bytes — in particular for both the 32-bit and the 64-bit data model —
which is exactly what the `static_assert (sizeof (Value) <= 24)` at the end
of the header enforces. -/
theorem value_node_within_24_bytes (ptrBytes sizeTBytes : Nat)
    (hp : ptrBytes ≤ 8) (hs : sizeTBytes ≤ 8) :
    valueBytes ptrBytes sizeTBytes ≤ 24 := by
  simp only [valueBytes, dataUnionBytes, shortStringPayloadBytes, longStringDataBytes,
    arrayDataBytes, objectDataBytes]
  omega

/-- Witness for C9 at the 64-bit data model (8-byte pointers and `size_t`):
the node occupies at most 24 bytes. -/
theorem value_node_within_24_bytes_witness :
    (8 ≤ 8 ∧ valueBytes 8 8 ≤ 24) ∧ valueBytes 8 8 = 24 :=
  ⟨⟨by decide, value_node_within_24_bytes 8 8 (by decide) (by decide)⟩, by decide⟩

/-- Claim C10: `reserveArray(n)` never raises TypeMismatch on a non-array —
whatever the previous variant (scalar, string or object), `ensureArray`
first resets the node, discarding the old payload, so it becomes an empty
array (used-count 0) whose capacity is then grown to `n`; `reserveObject`
behaves symmetrically on non-objects.  In the embedding both functions are
total, so no failure path other than the assumed-successful allocation
exists. -/
theorem reserve_resets_foreign_variant (v : Value) (n : Nat) :
    (isArray v = false →
      reserveArray v n = .array [] n ∧ sizeOfValue (reserveArray v n) = .ok 0)
    ∧ (isObject v = false →
      reserveObject v n = .object [] n ∧ sizeOfValue (reserveObject v n) = .ok 0) := by
  constructor
  · intro hv
    have h1 : reserveArray v n = .array [] n := by
      have he : ensureArray v = .array [] 0 := by
        cases v <;> simp_all [isArray, ensureArray]
      simp only [reserveArray, he]
      rcases Nat.eq_zero_or_pos n with h0 | h0
      · simp [h0]
      · rw [if_neg (by omega)]
    exact ⟨h1, by rw [h1]; rfl⟩
  · intro hv
    have h1 : reserveObject v n = .object [] n := by
      have he : ensureObject v = .object [] 0 := by
        cases v <;> simp_all [isObject, ensureObject]
      simp only [reserveObject, he]
      rcases Nat.eq_zero_or_pos n with h0 | h0
      · simp [h0]
      · rw [if_neg (by omega)]
    exact ⟨h1, by rw [h1]; rfl⟩

theorem keysNodup_cons_iff (a : String) (l : List String) :
    keysNodup (a :: l) = true ↔ (a ∉ l ∧ keysNodup l = true) := by
  simp [keysNodup]

theorem setInMembers_none_iff (k : String) (x : Value) :
    ∀ ms : List (String × Value), setInMembers ms k x = none ↔ k ∉ ms.map Prod.fst := by
  intro ms
  induction ms with
  | nil => simp [setInMembers]
  | cons kv rest ih =>
      obtain ⟨k2, y⟩ := kv
      by_cases hk : k2 = k
      · simp [setInMembers, hk]
      · have hkb : (k2 == k) = false := by simpa using hk
        simp only [setInMembers, hkb, Bool.false_eq_true, if_false, Option.map_eq_none',
          List.map_cons, List.mem_cons, ih]
        constructor
        · intro hnm hor
          rcases hor with he | hm
          · exact hk he.symm
          · exact hnm hm
        · intro hno hm
          exact hno (Or.inr hm)

theorem setInMembers_some_spec (k : String) (x : Value) :
    ∀ (ms ms2 : List (String × Value)), setInMembers ms k x = some ms2 →
      keysNodup (ms.map Prod.fst) = true →
      ms2.map Prod.fst = ms.map Prod.fst
      ∧ (ms2.filter (fun kv => kv.1 == k)).map Prod.snd = [x]
      ∧ ms2.filter (fun kv => !(kv.1 == k)) = ms.filter (fun kv => !(kv.1 == k)) := by
  intro ms
  induction ms with
  | nil => intro ms2 hsome; simp [setInMembers] at hsome
  | cons kv rest ih =>
      obtain ⟨k2, y⟩ := kv
      intro ms2 hsome hnd
      have hnd2 := (keysNodup_cons_iff k2 (rest.map Prod.fst)).mp (by simpa using hnd)
      by_cases hk : k2 = k
      · subst hk
        simp only [setInMembers, beq_self_eq_true, if_true, Option.some.injEq] at hsome
        subst hsome
        have hrest_nil : rest.filter (fun kv => kv.1 == k2) = [] := by
          rw [List.filter_eq_nil_iff]
          intro kv hm
          simp only [beq_iff_eq]
          intro he
          exact hnd2.1 (he ▸ List.mem_map_of_mem Prod.fst hm)
        refine ⟨by simp, ?_, ?_⟩
        · simp [List.filter_cons, hrest_nil]
        · simp [List.filter_cons]
      · have hkb : (k2 == k) = false := by simpa using hk
        simp only [setInMembers, hkb, Bool.false_eq_true, if_false] at hsome
        rcases Option.map_eq_some'.mp hsome with ⟨tail, htail, hms2⟩
        subst hms2
        obtain ⟨hkeys, hfk, hfne⟩ := ih tail htail hnd2.2
        refine ⟨by simp [hkeys], ?_, ?_⟩
        · simp [List.filter_cons, hkb, hfk]
        · simp [List.filter_cons, hkb, hfne]

theorem keysNodup_append_new (k : String) :
    ∀ l : List String, keysNodup l = true → k ∉ l → keysNodup (l ++ [k]) = true := by
  intro l
  induction l with
  | nil => intro _ _; simp [keysNodup]
  | cons a rest ih =>
      intro hnd hk
      obtain ⟨hna, hrest⟩ := (keysNodup_cons_iff a rest).mp hnd
      rw [List.cons_append, keysNodup_cons_iff]
      constructor
      · simp only [List.mem_append, List.mem_singleton]
        intro hor
        rcases hor with hm | he
        · exact hna hm
        · exact hk (he ▸ List.mem_cons_self a rest)
      · exact ih hrest (fun hm => hk (List.mem_cons_of_mem a hm))

theorem membersOf_ensureObject (v : Value) : membersOf (ensureObject v) = membersOf v := by
  cases v <;> rfl

theorem membersOf_reserveObject (v : Value) (n : Nat) :
    membersOf (reserveObject v n) = membersOf v := by
  cases v <;> simp only [reserveObject, ensureObject] <;> split <;> rfl

theorem membersOf_setObjectMember (v : Value) (k : String) (x : Value) :
    membersOf (setObjectMember v k x) = applySetMember (membersOf v) k x := by
  have hobj : ∃ c, ensureObject v = .object (membersOf v) c := by
    cases v <;> exact ⟨_, rfl⟩
  obtain ⟨c, hc⟩ := hobj
  simp only [setObjectMember, hc, applySetMember]
  cases hsm : setInMembers (membersOf v) k x <;> simp only [hsm] <;> rfl

theorem addMember_members (pairs : List (String × Value)) :
    ∀ v w : Value, membersOf v = membersOf w →
      membersOf (addMember v pairs)
        = membersOf (pairs.foldl (fun u kv => setObjectMember u kv.1 kv.2) w) := by
  induction pairs with
  | nil =>
      intro v w h
      simpa [addMember] using h
  | cons kv rest ih =>
      obtain ⟨k, x⟩ := kv
      intro v w h
      simp only [addMember, List.foldl_cons]
      apply ih
      rw [membersOf_setObjectMember, membersOf_setObjectMember, membersOf_reserveObject,
        membersOf_ensureObject, h]

/-- Claim C4: on an object whose stored keys are pairwise distinct (the
invariant the storage maintains), `setMember(k, x)` leaves exactly one member
named `k` and its value is `x` (the filter on `k` yields exactly `[x]`), all
other members are untouched (the complementary filter is unchanged), the key
sequence — and hence every member's insertion position and the member count —
is unchanged when `k` was present and otherwise extended by `k` at the end,
and the keys stay pairwise distinct.  The last conjunct discharges the
claim's `addMember` part: each of its name/value pairs is applied through
exactly the same `setObjectMember` step (the interleaved `reserveObject`
pre-allocations touch only capacity, never the members). -/
theorem setMember_overwrites_or_appends (ms : List (String × Value)) (c : Nat)
    (k : String) (x : Value) (h : keysNodup (ms.map Prod.fst) = true) :
    (isObject (setObjectMember (.object ms c) k x) = true
     ∧ ((membersOf (setObjectMember (.object ms c) k x)).filter
          (fun kv => kv.1 == k)).map Prod.snd = [x]
     ∧ (membersOf (setObjectMember (.object ms c) k x)).filter (fun kv => !(kv.1 == k))
         = ms.filter (fun kv => !(kv.1 == k))
     ∧ (membersOf (setObjectMember (.object ms c) k x)).map Prod.fst
         = (if k ∈ ms.map Prod.fst then ms.map Prod.fst else ms.map Prod.fst ++ [k])
     ∧ keysNodup ((membersOf (setObjectMember (.object ms c) k x)).map Prod.fst) = true)
    ∧ ∀ pairs : List (String × Value),
        membersOf (addMember (.object ms c) pairs)
          = membersOf (pairs.foldl (fun u kv => setObjectMember u kv.1 kv.2)
              (.object ms c)) := by
  refine ⟨?_, fun pairs => addMember_members pairs _ _ rfl⟩
  have hm : membersOf (setObjectMember (.object ms c) k x) = applySetMember ms k x :=
    membersOf_setObjectMember (.object ms c) k x
  have hobj : isObject (setObjectMember (.object ms c) k x) = true := by
    rw [setObjectMember]
    cases hsm : setInMembers ms k x <;> simp [ensureObject, hsm, isObject]
  rw [hm]
  cases hsm : setInMembers ms k x with
  | some ms2 =>
      have hk : k ∈ ms.map Prod.fst := by
        by_contra hnk
        rw [← setInMembers_none_iff k x ms] at hnk
        rw [hnk] at hsm
        cases hsm
      obtain ⟨hkeys, hfk, hfne⟩ := setInMembers_some_spec k x ms ms2 hsm h
      refine ⟨hobj, ?_, ?_, ?_, ?_⟩ <;> simp [applySetMember, hsm, hk, hkeys, hfk, hfne, h]
  | none =>
      have hnk : k ∉ ms.map Prod.fst := (setInMembers_none_iff k x ms).mp hsm
      have hfilter_nil : ms.filter (fun kv => kv.1 == k) = [] := by
        rw [List.filter_eq_nil_iff]
        intro kv hmem
        simp only [beq_iff_eq]
        intro he
        exact hnk (he ▸ List.mem_map_of_mem Prod.fst hmem)
      refine ⟨hobj, ?_, ?_, ?_, ?_⟩
      · simp [applySetMember, hsm, List.filter_append, hfilter_nil]
      · simp [applySetMember, hsm, List.filter_append]
      · simp [applySetMember, hsm, hnk]
      · simp only [applySetMember, hsm, List.map_append, List.map_cons, List.map_nil]
        exact keysNodup_append_new k (ms.map Prod.fst) h hnk

/-- Witness for C4 at the spec's concrete instance: setting member `a` to 1
on an empty object and then to 2 leaves exactly one member, named `a`, with
value 2, in first position. -/
theorem setMember_overwrites_or_appends_witness :
    setObjectMember (setObjectMember (.object [] 0) "a" (Value.int32 1)) "a" (Value.int32 2)
        = .object [("a", Value.int32 2)] 4
    ∧ ((membersOf (setObjectMember (.object [("a", Value.int32 1)] 4) "a"
          (Value.int32 2))).filter (fun kv => kv.1 == "a")).map Prod.snd
        = [Value.int32 2] :=
  ⟨rfl, ((setMember_overwrites_or_appends [("a", Value.int32 1)] 4 "a" (Value.int32 2)
      (by rfl)).1).2.1⟩

theorem membersIncluded_iff (ms ns : List (String × Value)) :
    membersIncluded ms ns = true ↔ ∀ kv ∈ ms, lookupEq ns kv.1 kv.2 = true := by
  induction ms with
  | nil => simp [membersIncluded]
  | cons kv rest ih =>
      obtain ⟨k, x⟩ := kv
      simp [membersIncluded, ih]

theorem lookupEq_exists_iff (k : String) (x : Value) :
    ∀ ns : List (String × Value), keysNodup (ns.map Prod.fst) = true →
      (lookupEq ns k x = true ↔ ∃ kv2 ∈ ns, kv2.1 = k ∧ valueEq x kv2.2 = true) := by
  intro ns
  induction ns with
  | nil => intro _; simp [lookupEq]
  | cons kv rest ih =>
      obtain ⟨k2, y⟩ := kv
      intro hnd
      have hnd2 := (keysNodup_cons_iff k2 (rest.map Prod.fst)).mp (by simpa using hnd)
      by_cases hk : k2 = k
      · subst hk
        rw [lookupEq, if_pos (beq_self_eq_true k2)]
        constructor
        · intro hv
          exact ⟨(k2, y), List.mem_cons_self _ _, rfl, hv⟩
        · rintro ⟨⟨k3, z⟩, hmem, hk3, hvz⟩
          rcases List.mem_cons.mp hmem with he | hm
          · rw [Prod.mk.injEq] at he
            rw [← he.2]
            exact hvz
          · exact absurd (hk3 ▸ List.mem_map_of_mem Prod.fst hm) hnd2.1
      · have hkb : (k2 == k) = false := by simpa using hk
        rw [lookupEq, hkb]
        simp only [Bool.false_eq_true, if_false]
        rw [ih hnd2.2]
        constructor
        · rintro ⟨kv2, hmem, hk2, hv⟩
          exact ⟨kv2, List.mem_cons_of_mem _ hmem, hk2, hv⟩
        · rintro ⟨⟨k3, z⟩, hmem, hk3, hvz⟩
          rcases List.mem_cons.mp hmem with he | hm
          · rw [Prod.mk.injEq] at he
            exact absurd (he.1 ▸ hk3) hk
          · exact ⟨(k3, z), hm, hk3, hvz⟩

/-- Claim C5: two object-typed values compare equal exactly when they have
the same member count and every member of the left object has a same-named
member with an equal value in the right object, independently of member
order.  The right object is assumed to satisfy the unique-keys storage
invariant, under which the code's "first member with that name" lookup
coincides with plain existence. -/
theorem object_equality_is_set_equality (ms ns : List (String × Value)) (cm cn : Nat)
    (h : keysNodup (ns.map Prod.fst) = true) :
    valueEq (.object ms cm) (.object ns cn) = true ↔
      (ms.length = ns.length
       ∧ ∀ kv ∈ ms, ∃ kv2 ∈ ns, kv2.1 = kv.1 ∧ valueEq kv.2 kv2.2 = true) := by
  have hunf : valueEq (.object ms cm) (.object ns cn)
      = (ms.length == ns.length && membersIncluded ms ns) := by
    simp [valueEq, isInt, isInt32, isInt64, isFloat]
  rw [hunf, Bool.and_eq_true, beq_iff_eq, membersIncluded_iff]
  constructor
  · rintro ⟨hlen, hincl⟩
    exact ⟨hlen, fun kv hm => (lookupEq_exists_iff kv.1 kv.2 ns h).mp (hincl kv hm)⟩
  · rintro ⟨hlen, hincl⟩
    exact ⟨hlen, fun kv hm => (lookupEq_exists_iff kv.1 kv.2 ns h).mpr (hincl kv hm)⟩

/-- Witness for C5 at the spec's concrete instances: `{a:1, b:2}` equals
`{b:2, a:1}` although the member order differs, and `{a:1}` does not equal
`{a:1, b:2}` because the member counts differ. -/
theorem object_equality_is_set_equality_witness :
    valueEq (.object [("a", Value.int32 1), ("b", Value.int32 2)] 4)
            (.object [("b", Value.int32 2), ("a", Value.int32 1)] 4) = true
    ∧ valueEq (.object [("a", Value.int32 1)] 4)
              (.object [("a", Value.int32 1), ("b", Value.int32 2)] 4) = false := by
  constructor
  · refine (object_equality_is_set_equality
      [("a", Value.int32 1), ("b", Value.int32 2)]
      [("b", Value.int32 2), ("a", Value.int32 1)] 4 4 (by rfl)).mpr ⟨rfl, ?_⟩
    intro kv hm
    rcases List.mem_cons.mp hm with he | hm2
    · subst he
      refine ⟨("a", Value.int32 1), by simp, rfl, ?_⟩
      simp [valueEq, isInt, isInt32, isInt64, isFloat, numericToRat]
    · rcases List.mem_cons.mp hm2 with he | hm3
      · subst he
        refine ⟨("b", Value.int32 2), by simp, rfl, ?_⟩
        simp [valueEq, isInt, isInt32, isInt64, isFloat, numericToRat]
      · cases hm3
  · rw [Bool.eq_false_iff]
    intro hc
    have h := (object_equality_is_set_equality
      [("a", Value.int32 1)] [("a", Value.int32 1), ("b", Value.int32 2)] 4 4
      (by rfl)).mp hc
    exact absurd h.1 (by decide)

/-- Witness for C10: reserving space for 3 array elements on the short
string `"hello"` silently converts it into an empty array of capacity 3, and
reserving 3 object members on the integer 5 converts it into an empty
object of capacity 3. -/
theorem reserve_resets_foreign_variant_witness :
    reserveArray (mkString "hello") 3 = .array [] 3
    ∧ reserveObject (.int32 5) 3 = .object [] 3 :=
  ⟨((reserve_resets_foreign_variant (mkString "hello") 3).1 (by decide)).1,
   ((reserve_resets_foreign_variant (.int32 5) 3).2 (by decide)).1⟩

theorem value_ind {P : Value → Prop} (hu : P .undefined) (hn : P .null)
    (hb : ∀ b, P (.boolV b)) (h32 : ∀ n, P (.int32 n)) (h64 : ∀ n, P (.int64 n))
    (hd : ∀ x, P (.double x)) (hss : ∀ s, P (.shortString s))
    (hls : ∀ s, P (.longString s))
    (ha : ∀ es c, (∀ v ∈ es, P v) → P (.array es c))
    (ho : ∀ ms c, (∀ k x, (k, x) ∈ ms → P x) → P (.object ms c)) :
    ∀ v, P v
  | .undefined => hu
  | .null => hn
  | .boolV b => hb b
  | .int32 n => h32 n
  | .int64 n => h64 n
  | .double x => hd x
  | .shortString s => hss s
  | .longString s => hls s
  | .array es c =>
      ha es c (fun v _hv => value_ind hu hn hb h32 h64 hd hss hls ha ho v)
  | .object ms c =>
      ho ms c (fun _k x _hkx => value_ind hu hn hb h32 h64 hd hss hls ha ho x)
termination_by v => sizeOf v
decreasing_by
  · simp_wf
    have := List.sizeOf_lt_of_mem _hv
    omega
  · simp_wf
    have h1 := List.sizeOf_lt_of_mem _hkx
    have h2 : sizeOf (_k, x) = 1 + sizeOf _k + sizeOf x := rfl
    omega

theorem copyElements_eq_self (es : List Value) (h : ∀ v ∈ es, copyFrom v = v) :
    copyElements es = es := by
  induction es with
  | nil => simp [copyElements]
  | cons v rest ih =>
      simp [copyElements, h v (List.mem_cons_self v rest),
        ih (fun w hw => h w (List.mem_cons_of_mem v hw))]

theorem copyMembers_eq_self (ms : List (String × Value))
    (h : ∀ k x, (k, x) ∈ ms → copyFrom x = x) : copyMembers ms = ms := by
  induction ms with
  | nil => simp [copyMembers]
  | cons kv rest ih =>
      obtain ⟨k, x⟩ := kv
      simp [copyMembers, h k x (List.mem_cons_self _ rest),
        ih (fun k2 x2 hm => h k2 x2 (List.mem_cons_of_mem _ hm))]

theorem copyFrom_eq_self (v : Value) : copyFrom v = v := by
  induction v using value_ind with
  | ha es c ih => simp [copyFrom, copyElements_eq_self es ih]
  | ho ms c ih => simp [copyFrom, copyMembers_eq_self ms ih]
  | _ => simp [copyFrom]

theorem wfElements_mem (es : List Value) (h : wfElements es = true) :
    ∀ v ∈ es, wf v = true := by
  induction es with
  | nil => intro v hv; cases hv
  | cons w rest ih =>
      simp only [wfElements, Bool.and_eq_true] at h
      intro v hv
      rcases List.mem_cons.mp hv with he | hm
      · exact he ▸ h.1
      · exact ih h.2 v hm

theorem wfMembers_mem (ms : List (String × Value)) (h : wfMembers ms = true) :
    ∀ k x, (k, x) ∈ ms → wf x = true := by
  induction ms with
  | nil => intro k x hm; cases hm
  | cons kv rest ih =>
      obtain ⟨k2, y⟩ := kv
      simp only [wfMembers, Bool.and_eq_true] at h
      intro k x hm
      rcases List.mem_cons.mp hm with he | hmr
      · rw [Prod.mk.injEq] at he
        exact he.2 ▸ h.1
      · exact ih h.2 k x hmr

theorem arrayEqList_refl (es : List Value) (h : ∀ v ∈ es, valueEq v v = true) :
    arrayEqList es es = true := by
  induction es with
  | nil => simp [arrayEqList]
  | cons v rest ih =>
      simp [arrayEqList, h v (List.mem_cons_self v rest),
        ih (fun w hw => h w (List.mem_cons_of_mem v hw))]

theorem valueEq_refl_of_wf (v : Value) (h : wf v = true) : valueEq v v = true := by
  induction v using value_ind with
  | hu => simp [valueEq, isInt, isInt32, isInt64, isFloat]
  | hn => simp [valueEq, isInt, isInt32, isInt64, isFloat]
  | hb b => simp [valueEq, isInt, isInt32, isInt64, isFloat]
  | h32 n => simp [valueEq, isInt, isInt32, isInt64, isFloat]
  | h64 n => simp [valueEq, isInt, isInt32, isInt64, isFloat]
  | hd x => simp [valueEq, isInt, isInt32, isInt64, isFloat]
  | hss s => simp [valueEq, isInt, isInt32, isInt64, isFloat]
  | hls s => simp [valueEq, isInt, isInt32, isInt64, isFloat]
  | ha es c ih =>
      have hes : wfElements es = true := by simpa [wf] using h
      have hall : ∀ v ∈ es, valueEq v v = true :=
        fun v hv => ih v hv (wfElements_mem es hes v hv)
      simp [valueEq, isInt, isInt32, isInt64, isFloat, arrayEqList_refl es hall]
  | ho ms c ih =>
      have hms : keysNodup (ms.map Prod.fst) = true ∧ wfMembers ms = true := by
        simpa [wf, Bool.and_eq_true] using h
      have hincl : membersIncluded ms ms = true := by
        rw [membersIncluded_iff]
        intro kv hm
        rw [lookupEq_exists_iff kv.1 kv.2 ms hms.1]
        exact ⟨kv, hm, rfl,
          ih kv.1 kv.2 (by simpa using hm) (wfMembers_mem ms hms.2 kv.1 kv.2 (by simpa using hm))⟩
      simp [valueEq, isInt, isInt32, isInt64, isFloat, hincl]

/-- Claim C1: copying a value is a full deep copy and the copy equals the
original, recursively through arrays and objects.  `copyFrom` (the routine
behind copy construction and copy assignment) rebuilds the whole tree —
fresh buffers at every level, contents identical — so the copy holds no
reference into the source, and in this pure embedding that independence is
structural: every mutation operation maps the copy to a new value and cannot
touch the original term.  The first conjunct states that the recursive
rebuild reproduces the value exactly; the second that the copy compares
equal to the original under `operator==`, given the unique-keys storage
invariant `wf` that every API-constructible value satisfies (`operator==` on
an object compares members through the first-match-by-name lookup, so it is
reflexive exactly on key-unique storage). -/
theorem copy_is_deep_and_equal (v : Value) (h : wf v = true) :
    copyFrom v = v ∧ valueEq (copyFrom v) v = true :=
  ⟨copyFrom_eq_self v, by rw [copyFrom_eq_self v]; exact valueEq_refl_of_wf v h⟩

/-- Witness for C1 on a value exercising every interesting variant: an
object holding an array of an integer and a short string, plus a float
member. -/
theorem copy_is_deep_and_equal_witness :
    copyFrom (.object [("a", .array [Value.int32 1, mkString "hi"] 8),
        ("b", Value.double (1/2))] 4)
      = .object [("a", .array [Value.int32 1, mkString "hi"] 8),
        ("b", Value.double (1/2))] 4
    ∧ valueEq (copyFrom (.object [("a", .array [Value.int32 1, mkString "hi"] 8),
        ("b", Value.double (1/2))] 4))
        (.object [("a", .array [Value.int32 1, mkString "hi"] 8),
          ("b", Value.double (1/2))] 4) = true :=
  copy_is_deep_and_equal _ (by
    have hs : mkString "hi" = Value.shortString "hi" := by
      rw [mkString, if_pos (by decide)]
    simp [wf, wfMembers, wfElements, keysNodup, hs])

end ChocJson
